import Mathlib

/-!
Verification of the loss-recovery accounting core of s2n-quic:
the Proportional Rate Reduction (PRR) accountant
(`s2n-quic-core/src/recovery/prr.rs`) and the sent-packet ledger
(`s2n-quic-transport/src/recovery/sent_packets.rs`).

Machine integers (`usize`, `u32`, `u16`, `u64`) are modelled as `Nat`;
none of the verified properties depends on wraparound, and Rust
`saturating_sub` coincides with truncated `Nat` subtraction.
-/

/-! ## PRR accountant (`recovery/prr.rs`) -/

/-- PRR state: the four byte counters of `struct Prr`. -/
structure Prr where
  /-- Total bytes sent during recovery (prr_out). -/
  bytes_sent_during_recovery : Nat
  /-- Total bytes delivered during recovery (prr_delivered). -/
  bytes_delivered_during_recovery : Nat
  /-- FlightSize at the start of recovery (RecoverFS). -/
  bytes_in_flight_at_recovery : Nat
  /-- sndcnt: bytes that may be sent in response to each ACK. -/
  bytes_allowed_on_ack : Nat
deriving DecidableEq

/-- `Prr::new`: all counters start at zero. -/
def Prr.new : Prr :=
  { bytes_in_flight_at_recovery := 0
    bytes_sent_during_recovery := 0
    bytes_delivered_during_recovery := 0
    bytes_allowed_on_ack := 0 }

/-- `Prr::on_congestion_event`: snapshot `bytes_in_flight`, reset the rest. -/
def Prr.on_congestion_event (p : Prr) (bytes_in_flight : Nat) : Prr :=
  { p with
    bytes_in_flight_at_recovery := bytes_in_flight
    bytes_sent_during_recovery := 0
    bytes_delivered_during_recovery := 0
    bytes_allowed_on_ack := 0 }

/-- `Prr::on_packet_sent`: accumulate `bytes_sent`, decrement the budget
with saturating subtraction (truncated `Nat` subtraction). -/
def Prr.on_packet_sent (p : Prr) (bytes_sent : Nat) : Prr :=
  { p with
    bytes_sent_during_recovery := p.bytes_sent_during_recovery + bytes_sent
    bytes_allowed_on_ack := p.bytes_allowed_on_ack - bytes_sent }

/-- `Prr::on_ack`, transcribed from the source: add `bytes_acknowledged` to
`bytes_delivered_during_recovery`, then recompute `bytes_allowed_on_ack`.
In the congestion-avoidance branch the source computes
`((prr_delivered * ssthresh + RecoverFS - 1) / RecoverFS).saturating_sub(prr_delivered)`,
i.e. it subtracts `bytes_delivered_during_recovery`, although the RFC 6937
formula quoted in the source comment subtracts `prr_out`. The transcription
keeps the source's behaviour. -/
def Prr.on_ack (p : Prr) (bytes_acknowledged bytes_in_flight slow_start_threshold
    max_datagram_size : Nat) : Prr :=
  let bytes_delivered := p.bytes_delivered_during_recovery + bytes_acknowledged
  let allowed :=
    if slow_start_threshold < bytes_in_flight then
      if p.bytes_in_flight_at_recovery = 0 then
        0
      else
        (bytes_delivered * slow_start_threshold + p.bytes_in_flight_at_recovery - 1) /
            p.bytes_in_flight_at_recovery - bytes_delivered
    else
      let limit :=
        max (bytes_delivered - p.bytes_sent_during_recovery) bytes_in_flight +
          max_datagram_size
      min limit (slow_start_threshold - bytes_in_flight)
  { p with
    bytes_delivered_during_recovery := bytes_delivered
    bytes_allowed_on_ack := allowed }

/-- `Prr::can_transmit`: pure query on the budget. -/
def Prr.can_transmit (p : Prr) (datagram_size : Nat) : Bool :=
  decide (p.bytes_allowed_on_ack ≥ datagram_size)

/-- The process-wide `OnceCell<bool>` backing `Prr::is_enabled` (std build):
`none` while uninitialized, `some b` after the first read. -/
structure PrrGlobal where
  use_prr : Option Bool
deriving DecidableEq

/-- `Prr::is_enabled` (std build): `USE_PRR.get_or_init(|| env::var(S2N_ENABLE_PRR).is_ok())`.
The environment is modelled by `env_has_var : Bool`, the presence of the
`S2N_ENABLE_PRR` variable at the moment of the call; the first call stores
that value in the cell and every later call returns the stored value. -/
def Prr.is_enabled (g : PrrGlobal) (env_has_var : Bool) : Bool × PrrGlobal :=
  match g.use_prr with
  | some b => (b, g)
  | none => (env_has_var, { use_prr := some env_has_var })

/-- `Prr::is_enabled` (non-std build): always `false`. -/
def Prr.is_enabled_no_std : Bool :=
  false

/-! ## PRR theorems -/

/-- C1. The claim states the congestion-avoidance budget as
`ceil(prr_delivered * ssthresh / RecoverFS) - bytes_sent_during_recovery`
and expects `400` in the concrete scenario. The source instead saturating-subtracts
`bytes_delivered_during_recovery`: after `on_congestion_event(1000)` and
`on_ack(500, 1200, 800, 1200)` the code yields
`ceil(500*800/1000).saturating_sub(500) = 0`, not `400`. This theorem
records the code's value at the claim's own concrete input. -/
theorem prr_on_ack_congestion_avoidance_code_eval :
    ((Prr.new.on_congestion_event 1000).on_ack 500 1200 800 1200).bytes_allowed_on_ack = 0 ∧
      (400 : Nat) ≠ 0 := by
  constructor
  · rfl
  · decide

/-- C2. Slow-start reduction bound regime: when `bytes_in_flight ≤ slow_start_threshold`,
`on_ack` adds `bytes_acknowledged` to `bytes_delivered_during_recovery` and sets
`bytes_allowed_on_ack = min (max (delivered - sent) bytes_in_flight + max_datagram_size)
(slow_start_threshold - bytes_in_flight)`, with truncated (saturating) subtraction. -/
theorem prr_on_ack_slow_start_reduction_bound (p : Prr)
    (bytes_acknowledged bytes_in_flight slow_start_threshold max_datagram_size : Nat)
    (h : bytes_in_flight ≤ slow_start_threshold) :
    (p.on_ack bytes_acknowledged bytes_in_flight slow_start_threshold
        max_datagram_size).bytes_delivered_during_recovery =
      p.bytes_delivered_during_recovery + bytes_acknowledged ∧
    (p.on_ack bytes_acknowledged bytes_in_flight slow_start_threshold
        max_datagram_size).bytes_allowed_on_ack =
      min
        (max ((p.bytes_delivered_during_recovery + bytes_acknowledged) -
            p.bytes_sent_during_recovery) bytes_in_flight + max_datagram_size)
        (slow_start_threshold - bytes_in_flight) := by
  constructor
  · rfl
  · simp only [Prr.on_ack, if_neg (not_lt.mpr h)]

/-- Witness for C2 at the spec's concrete scenario: state with
`prr_delivered = 200`, `prr_out = 100`; ack of `100` brings delivered to `300`;
`bytes_in_flight = 400 ≤ 900 = ssthresh`, `max_datagram_size = 200`;
the budget is `min (max (300-100) 400 + 200) (900-400) = 500`. -/
theorem prr_on_ack_slow_start_reduction_bound_witness :
    (400 : Nat) ≤ 900 ∧
      ((Prr.mk 100 200 1000 0).on_ack 100 400 900 200).bytes_allowed_on_ack = 500 := by
  refine ⟨by decide, ?_⟩
  rw [(prr_on_ack_slow_start_reduction_bound (Prr.mk 100 200 1000 0) 100 400 900 200
    (by decide)).2]
  decide

/-- C4. `on_congestion_event X` snapshots `X` into `bytes_in_flight_at_recovery`
and zeroes the other three counters; consequently `can_transmit 1` is `false`. -/
theorem prr_on_congestion_event_reset (p : Prr) (X : Nat) :
    (p.on_congestion_event X).bytes_in_flight_at_recovery = X ∧
    (p.on_congestion_event X).bytes_sent_during_recovery = 0 ∧
    (p.on_congestion_event X).bytes_delivered_during_recovery = 0 ∧
    (p.on_congestion_event X).bytes_allowed_on_ack = 0 ∧
    (p.on_congestion_event X).can_transmit 1 = false :=
  ⟨rfl, rfl, rfl, rfl, rfl⟩

/-- C5. `on_packet_sent` adds `bytes_sent` to `bytes_sent_during_recovery` and
decrements `bytes_allowed_on_ack` with saturating subtraction: over the integers
the new budget is `max (old - bytes_sent) 0`, never negative. -/
theorem prr_on_packet_sent_saturating (p : Prr) (bytes_sent : Nat) :
    (p.on_packet_sent bytes_sent).bytes_sent_during_recovery =
      p.bytes_sent_during_recovery + bytes_sent ∧
    ((p.on_packet_sent bytes_sent).bytes_allowed_on_ack : Int) =
      max ((p.bytes_allowed_on_ack : Int) - (bytes_sent : Int)) 0 := by
  refine ⟨rfl, ?_⟩
  simp only [Prr.on_packet_sent]
  omega

/-- C9. `is_enabled`: the first read returns exactly the presence of the
environment variable at that moment and stores it; any call on an initialized
cell returns the stored value and leaves the cell unchanged; a call after any
call returns the same value regardless of the environment then; the non-std
build always returns `false`. -/
theorem prr_is_enabled_once :
    (∀ env_has_var : Bool,
      Prr.is_enabled { use_prr := none } env_has_var =
        (env_has_var, { use_prr := some env_has_var })) ∧
    (∀ (b : Bool) (env_later : Bool),
      Prr.is_enabled { use_prr := some b } env_later = (b, { use_prr := some b })) ∧
    (∀ (g : PrrGlobal) (env1 env2 : Bool),
      (Prr.is_enabled (Prr.is_enabled g env1).2 env2).1 = (Prr.is_enabled g env1).1) ∧
    Prr.is_enabled_no_std = false := by
  refine ⟨fun _ => rfl, fun _ _ => rfl, fun g e1 e2 => ?_, rfl⟩
  cases h : g.use_prr <;> simp [Prr.is_enabled, h]

/-- C10. Frame conditions: `on_packet_sent` leaves `bytes_in_flight_at_recovery`
and `bytes_delivered_during_recovery` unchanged; `on_ack` leaves
`bytes_in_flight_at_recovery` and `bytes_sent_during_recovery` unchanged; and
`can_transmit` is a pure function of `bytes_allowed_on_ack`, mutating nothing. -/
theorem prr_frame_conditions (p : Prr)
    (bytes_sent bytes_acknowledged bytes_in_flight slow_start_threshold
      max_datagram_size datagram_size : Nat) :
    (p.on_packet_sent bytes_sent).bytes_in_flight_at_recovery =
      p.bytes_in_flight_at_recovery ∧
    (p.on_packet_sent bytes_sent).bytes_delivered_during_recovery =
      p.bytes_delivered_during_recovery ∧
    (p.on_ack bytes_acknowledged bytes_in_flight slow_start_threshold
        max_datagram_size).bytes_in_flight_at_recovery =
      p.bytes_in_flight_at_recovery ∧
    (p.on_ack bytes_acknowledged bytes_in_flight slow_start_threshold
        max_datagram_size).bytes_sent_during_recovery =
      p.bytes_sent_during_recovery ∧
    p.can_transmit datagram_size = decide (p.bytes_allowed_on_ack ≥ datagram_size) :=
  ⟨rfl, rfl, rfl, rfl, rfl⟩

/-! ## Packet-number primitives and the sent-packet ledger
(`recovery/sent_packets.rs`) -/

/-- Packet-number space tag (`PacketNumberSpace`). -/
inductive PacketNumberSpace where
  | initial
  | handshake
  | applicationData
deriving DecidableEq

/-- Modelled from the spec: the packet-number primitives (module
`packet::number` of s2n-quic-core) are not under `src/`; per the spec a
packet number is an unsigned integer tagged by its owning space. -/
structure PacketNumber where
  space : PacketNumberSpace
  value : Nat
deriving DecidableEq

/-- Opaque monotonic clock reading, modelled as `Nat`. -/
abbrev Timestamp := Nat

/-- `SentPacketInfo`: value record stored per sent packet. -/
structure SentPacketInfo where
  in_flight : Bool
  sent_bytes : Nat
  time_sent : Timestamp
deriving DecidableEq

/-- `SentPacketInfo::new`. -/
def SentPacketInfo.new (in_flight : Bool) (sent_bytes : Nat)
    (time_sent : Timestamp) : SentPacketInfo :=
  { in_flight := in_flight, sent_bytes := sent_bytes, time_sent := time_sent }

/-- Modelled from the spec: ordering of packet numbers. Same-space values
compare by integer value; a cross-space comparison is a programming error
surfaced as a fatal assertion, modelled as `Except.error`. -/
def PacketNumber.cmp (a b : PacketNumber) : Except Unit Ordering :=
  if a.space = b.space then
    .ok (if a.value < b.value then .lt else if b.value < a.value then .gt else .eq)
  else
    .error ()

/-- Modelled from the spec: `PacketNumberRange` is an inclusive pair of
packet numbers from the same space with `start ≤ end` (the invariant is
established by `PacketNumberRange.new` below). -/
structure PacketNumberRange where
  start : PacketNumber
  «end» : PacketNumber
deriving DecidableEq

/-- Modelled from the spec: `PacketNumberRange::new` fatally asserts that
both endpoints share a space and `start ≤ end`. -/
def PacketNumberRange.new (s e : PacketNumber) : Except Unit PacketNumberRange :=
  if s.space = e.space ∧ s.value ≤ e.value then .ok { start := s, «end» := e }
  else .error ()

/-- Entry list of the ledger: the ordered contents of the backing
`BTreeMap<PacketNumber, SentPacketInfo>`. -/
abbrev SentPacketList := List (PacketNumber × SentPacketInfo)

/-- `BTreeMap::insert` on the ordered association list representing the map:
walk to the insertion point comparing keys; an equal key is overwritten; a
cross-space comparison aborts. -/
def insertList : SentPacketList → PacketNumber → SentPacketInfo →
    Except Unit SentPacketList
  | [], k, v => .ok [(k, v)]
  | (k0, v0) :: rest, k, v => do
    match ← k.cmp k0 with
    | .lt => .ok ((k, v) :: (k0, v0) :: rest)
    | .eq => .ok ((k, v) :: rest)
    | .gt => do
      let t ← insertList rest k v
      .ok ((k0, v0) :: t)

/-- `BTreeMap::get` on the ordered association list: compare down the list,
stopping when the key would have been passed. -/
def getList : SentPacketList → PacketNumber → Except Unit (Option SentPacketInfo)
  | [], _ => .ok none
  | (k0, v0) :: rest, k => do
    match ← k.cmp k0 with
    | .lt => .ok none
    | .eq => .ok (some v0)
    | .gt => getList rest k

/-- `BTreeMap::remove` on the ordered association list. -/
def removeList : SentPacketList → PacketNumber →
    Except Unit (Option SentPacketInfo × SentPacketList)
  | [], _ => .ok (none, [])
  | (k0, v0) :: rest, k => do
    match ← k.cmp k0 with
    | .lt => .ok (none, (k0, v0) :: rest)
    | .eq => .ok (some v0, rest)
    | .gt => do
      let (r, t) ← removeList rest k
      .ok (r, (k0, v0) :: t)

/-- `BTreeMap::range(start..=end)` on the ordered association list: keep the
entries between the inclusive bounds, comparing each stored key against both
bounds. -/
def rangeList : SentPacketList → PacketNumberRange → Except Unit SentPacketList
  | [], _ => .ok []
  | (k0, v0) :: rest, r => do
    let c1 ← r.start.cmp k0
    let c2 ← k0.cmp r.«end»
    let t ← rangeList rest r
    if c1 = .gt ∨ c2 = .gt then .ok t else .ok ((k0, v0) :: t)

/-- `struct SentPackets { sent_packets: BTreeMap<PacketNumber, SentPacketInfo> }`,
the map represented by its ordered entry list. -/
structure SentPackets where
  sent_packets : SentPacketList
deriving DecidableEq

/-- `SentPackets::default()`: the empty ledger. -/
def SentPackets.default : SentPackets :=
  { sent_packets := [] }

/-- `SentPackets::insert`. -/
def SentPackets.insert (sp : SentPackets) (packet_number : PacketNumber)
    (sent_packet_info : SentPacketInfo) : Except Unit SentPackets := do
  let l ← insertList sp.sent_packets packet_number sent_packet_info
  .ok { sent_packets := l }

/-- `SentPackets::get`. -/
def SentPackets.get (sp : SentPackets) (packet_number : PacketNumber) :
    Except Unit (Option SentPacketInfo) :=
  getList sp.sent_packets packet_number

/-- `SentPackets::range`. -/
def SentPackets.range (sp : SentPackets) (range : PacketNumberRange) :
    Except Unit SentPacketList :=
  rangeList sp.sent_packets range

/-- `SentPackets::remove`. -/
def SentPackets.remove (sp : SentPackets) (packet_number : PacketNumber) :
    Except Unit (Option SentPacketInfo × SentPackets) := do
  let (r, l) ← removeList sp.sent_packets packet_number
  .ok (r, { sent_packets := l })

/-- `SentPackets::iter`: the ordered entry sequence. -/
def SentPackets.iter (sp : SentPackets) : SentPacketList :=
  sp.sent_packets

/-! ## Reference functions and ledger invariants -/

/-- Plain association-list lookup (first match). -/
def lookupPure : SentPacketList → PacketNumber → Option SentPacketInfo
  | [], _ => none
  | (k0, v0) :: rest, k => if k = k0 then some v0 else lookupPure rest k

/-- Plain association-list erase (first match). -/
def erasePure : SentPacketList → PacketNumber → SentPacketList
  | [], _ => []
  | (k0, v0) :: rest, k => if k = k0 then rest else (k0, v0) :: erasePure rest k

/-- Plain ordered insertion by packet-number value, overwriting an equal value. -/
def insertPure : SentPacketList → PacketNumber → SentPacketInfo → SentPacketList
  | [], k, v => [(k, v)]
  | (k0, v0) :: rest, k, v =>
    if k.value < k0.value then (k, v) :: (k0, v0) :: rest
    else if k0.value < k.value then (k0, v0) :: insertPure rest k v
    else (k, v) :: rest

/-- All keys of the entry list belong to space `s`. -/
abbrev SameSpace (s : PacketNumberSpace) (l : SentPacketList) : Prop :=
  ∀ e ∈ l, e.1.space = s

/-- The entry list is strictly ascending by packet-number value. -/
abbrev SortedLedger (l : SentPacketList) : Prop :=
  l.Pairwise (fun a b => a.1.value < b.1.value)

/-- Ledgers reachable from the empty ledger by same-space insertions and
removals that did not abort. -/
inductive Reachable (s : PacketNumberSpace) : SentPackets → Prop where
  | empty : Reachable s { sent_packets := [] }
  | insert (sp sp' : SentPackets) (k : PacketNumber) (v : SentPacketInfo) :
      Reachable s sp → k.space = s → sp.insert k v = .ok sp' → Reachable s sp'
  | remove (sp sp' : SentPackets) (k : PacketNumber) (res : Option SentPacketInfo) :
      Reachable s sp → k.space = s → sp.remove k = .ok (res, sp') → Reachable s sp'

/-- Fold `SentPackets.insert` over a list of entries. -/
def insertAll : SentPackets → SentPacketList → Except Unit SentPackets
  | sp, [] => .ok sp
  | sp, (k, v) :: ops => do
    let sp' ← sp.insert k v
    insertAll sp' ops

/-- Fold `SentPackets.remove` over a list of packet numbers, discarding the
returned values. -/
def removeAll : SentPackets → List PacketNumber → Except Unit SentPackets
  | sp, [] => .ok sp
  | sp, k :: ks => do
    let (_, sp') ← sp.remove k
    removeAll sp' ks

/-- The value most recently written for key `k` by the write sequence `ops`,
starting from default `d`. -/
def lastUpd : SentPacketList → PacketNumber → Option SentPacketInfo →
    Option SentPacketInfo
  | [], _, d => d
  | (k0, v0) :: ops, k, d => lastUpd ops k (if k = k0 then some v0 else d)

/-! ## Helper lemmas -/

theorem except_bind_ok {α β ε : Type} (a : α) (f : α → Except ε β) :
    (Except.ok a >>= f) = f a :=
  rfl

theorem except_bind_error {α β ε : Type} (e : ε) (f : α → Except ε β) :
    ((Except.error e : Except ε α) >>= f) = Except.error e :=
  rfl

theorem PacketNumber.cmp_ok {a b : PacketNumber} (h : a.space = b.space) :
    a.cmp b =
      .ok (if a.value < b.value then .lt else if b.value < a.value then .gt else .eq) := by
  simp [PacketNumber.cmp, h]

theorem PacketNumber.cmp_error {a b : PacketNumber} (h : a.space ≠ b.space) :
    a.cmp b = .error () := by
  simp [PacketNumber.cmp, h]

theorem PacketNumber.eq_of_parts {a b : PacketNumber} (hs : a.space = b.space)
    (hv : a.value = b.value) : a = b := by
  cases a
  cases b
  simp_all

theorem lookupPure_eq_none {l : SentPacketList} {k : PacketNumber}
    (h : ∀ e ∈ l, k ≠ e.1) : lookupPure l k = none := by
  induction l with
  | nil => rfl
  | cons e rest ih =>
    obtain ⟨k0, v0⟩ := e
    have hne : k ≠ k0 := h (k0, v0) (List.mem_cons_self _ _)
    simp only [lookupPure, if_neg hne]
    exact ih fun e he => h e (List.mem_cons_of_mem _ he)

theorem lookupPure_isSome_of_mem {l : SentPacketList} {x : PacketNumber × SentPacketInfo}
    (h : x ∈ l) : (lookupPure l x.1).isSome := by
  induction l with
  | nil => cases h
  | cons e rest ih =>
    obtain ⟨k0, v0⟩ := e
    rcases List.mem_cons.mp h with hx | hx
    · subst hx
      simp [lookupPure]
    · by_cases hk : x.1 = k0
      · simp [lookupPure, hk]
      · simp only [lookupPure, if_neg hk]
        exact ih hx

theorem mem_insertPure {l : SentPacketList} {k : PacketNumber} {v : SentPacketInfo}
    {x : PacketNumber × SentPacketInfo} (h : x ∈ insertPure l k v) :
    x = (k, v) ∨ x ∈ l := by
  induction l with
  | nil =>
    simp only [insertPure, List.mem_singleton] at h
    exact Or.inl h
  | cons e rest ih =>
    obtain ⟨k0, v0⟩ := e
    simp only [insertPure] at h
    split at h
    · rcases List.mem_cons.mp h with hx | hx
      · exact Or.inl hx
      · exact Or.inr hx
    · split at h
      · rcases List.mem_cons.mp h with hx | hx
        · exact Or.inr (List.mem_cons.mpr (Or.inl hx))
        · rcases ih hx with hx' | hx'
          · exact Or.inl hx'
          · exact Or.inr (List.mem_cons.mpr (Or.inr hx'))
      · rcases List.mem_cons.mp h with hx | hx
        · exact Or.inl hx
        · exact Or.inr (List.mem_cons.mpr (Or.inr hx))

theorem sameSpace_insertPure {s : PacketNumberSpace} {l : SentPacketList}
    {k : PacketNumber} {v : SentPacketInfo} (hs : SameSpace s l) (hk : k.space = s) :
    SameSpace s (insertPure l k v) := by
  intro x hx
  rcases mem_insertPure hx with hx' | hx'
  · subst hx'
    exact hk
  · exact hs x hx'

theorem sorted_insertPure {l : SentPacketList} {k : PacketNumber} {v : SentPacketInfo}
    (hsort : SortedLedger l) : SortedLedger (insertPure l k v) := by
  induction l with
  | nil => simp [insertPure, SortedLedger]
  | cons e rest ih =>
    obtain ⟨k0, v0⟩ := e
    rcases List.pairwise_cons.mp hsort with ⟨hhead, htail⟩
    simp only [insertPure]
    split
    · refine List.pairwise_cons.mpr ⟨?_, hsort⟩
      intro x hx
      rcases List.mem_cons.mp hx with hx' | hx'
      · subst hx'
        assumption
      · calc k.value < k0.value := by assumption
          _ < x.1.value := hhead x hx'
    · split
      · refine List.pairwise_cons.mpr ⟨?_, ih htail⟩
        intro x hx
        rcases mem_insertPure hx with hx' | hx'
        · subst hx'
          assumption
        · exact hhead x hx'
      · refine List.pairwise_cons.mpr ⟨?_, htail⟩
        intro x hx
        have hv : k.value = k0.value := by omega
        rw [hv]
        exact hhead x hx

theorem lookupPure_insertPure {s : PacketNumberSpace} {l : SentPacketList}
    {k : PacketNumber} {v : SentPacketInfo} (hs : SameSpace s l) (hk : k.space = s)
    (k' : PacketNumber) :
    lookupPure (insertPure l k v) k' = if k' = k then some v else lookupPure l k' := by
  induction l with
  | nil => simp [insertPure, lookupPure]
  | cons e rest ih =>
    obtain ⟨k0, v0⟩ := e
    have hk0 : k0.space = s := hs (k0, v0) (List.mem_cons_self _ _)
    have hrest : SameSpace s rest := fun e he => hs e (List.mem_cons_of_mem _ he)
    simp only [insertPure]
    split
    · simp [lookupPure]
    · split
      · have hne : k ≠ k0 := by
          intro h
          subst h
          omega
        simp only [lookupPure]
        by_cases h1 : k' = k0
        · subst h1
          rw [if_pos rfl, if_neg (by intro h; subst h; omega), if_pos rfl]
        · rw [if_neg h1, if_neg h1, ih hrest]
      · have hkk0 : k = k0 := PacketNumber.eq_of_parts (hk.trans hk0.symm) (by omega)
        subst hkk0
        simp only [lookupPure]
        by_cases h1 : k' = k
        · simp [h1]
        · simp [h1]

theorem erasePure_sublist (l : SentPacketList) (k : PacketNumber) :
    (erasePure l k).Sublist l := by
  induction l with
  | nil => simp [erasePure]
  | cons e rest ih =>
    obtain ⟨k0, v0⟩ := e
    simp only [erasePure]
    split
    · exact List.sublist_cons_self _ _
    · exact List.Sublist.cons₂ _ ih

theorem mem_erasePure {l : SentPacketList} {k : PacketNumber}
    {x : PacketNumber × SentPacketInfo} (h : x ∈ erasePure l k) : x ∈ l :=
  (erasePure_sublist l k).subset h

theorem sameSpace_erasePure {s : PacketNumberSpace} {l : SentPacketList}
    {k : PacketNumber} (hs : SameSpace s l) : SameSpace s (erasePure l k) :=
  fun x hx => hs x (mem_erasePure hx)

theorem sorted_erasePure {l : SentPacketList} {k : PacketNumber}
    (hsort : SortedLedger l) : SortedLedger (erasePure l k) :=
  hsort.sublist (erasePure_sublist l k)

theorem erasePure_eq_self {l : SentPacketList} {k : PacketNumber}
    (h : lookupPure l k = none) : erasePure l k = l := by
  induction l with
  | nil => rfl
  | cons e rest ih =>
    obtain ⟨k0, v0⟩ := e
    simp only [lookupPure] at h
    by_cases hk : k = k0
    · simp [hk] at h
    · simp only [if_neg hk] at h
      simp only [erasePure, if_neg hk]
      rw [ih h]

theorem lookupPure_erasePure_self {l : SentPacketList} {k : PacketNumber}
    (hsort : SortedLedger l) : lookupPure (erasePure l k) k = none := by
  induction l with
  | nil => rfl
  | cons e rest ih =>
    obtain ⟨k0, v0⟩ := e
    rcases List.pairwise_cons.mp hsort with ⟨hhead, htail⟩
    simp only [erasePure]
    by_cases hk : k = k0
    · rw [if_pos hk]
      refine lookupPure_eq_none fun x hx => ?_
      intro hkx
      have h2 : k0.value < x.1.value := hhead x hx
      rw [← hkx, hk] at h2
      exact lt_irrefl _ h2
    · rw [if_neg hk]
      simp only [lookupPure, if_neg hk]
      exact ih htail

theorem lookupPure_erasePure_ne {l : SentPacketList} {k k' : PacketNumber}
    (h : k' ≠ k) : lookupPure (erasePure l k) k' = lookupPure l k' := by
  induction l with
  | nil => rfl
  | cons e rest ih =>
    obtain ⟨k0, v0⟩ := e
    simp only [erasePure]
    by_cases hk : k = k0
    · rw [if_pos hk]
      simp only [lookupPure]
      rw [if_neg (by rw [hk] at h; exact h)]
    · rw [if_neg hk]
      simp only [lookupPure]
      by_cases h1 : k' = k0
      · simp [h1]
      · rw [if_neg h1, if_neg h1]
        exact ih

theorem insertList_eq {s : PacketNumberSpace} {l : SentPacketList} {k : PacketNumber}
    {v : SentPacketInfo} (hs : SameSpace s l) (hk : k.space = s) :
    insertList l k v = .ok (insertPure l k v) := by
  induction l with
  | nil => rfl
  | cons e rest ih =>
    obtain ⟨k0, v0⟩ := e
    have hk0 : k0.space = s := hs (k0, v0) (List.mem_cons_self _ _)
    have hrest : SameSpace s rest := fun e he => hs e (List.mem_cons_of_mem _ he)
    have hcmp := PacketNumber.cmp_ok (a := k) (b := k0) (hk.trans hk0.symm)
    rcases Nat.lt_trichotomy k.value k0.value with hlt | heq | hgt
    · rw [if_pos hlt] at hcmp
      simp [insertList, insertPure, hcmp, except_bind_ok, hlt]
    · have h1 : ¬k.value < k0.value := by omega
      have h2 : ¬k0.value < k.value := by omega
      rw [if_neg h1, if_neg h2] at hcmp
      simp [insertList, insertPure, hcmp, except_bind_ok, h1, h2]
    · have h1 : ¬k.value < k0.value := by omega
      rw [if_neg h1, if_pos hgt] at hcmp
      simp [insertList, insertPure, hcmp, except_bind_ok, h1, hgt, ih hrest]

theorem getList_eq {s : PacketNumberSpace} {l : SentPacketList} {k : PacketNumber}
    (hs : SameSpace s l) (hsort : SortedLedger l) (hk : k.space = s) :
    getList l k = .ok (lookupPure l k) := by
  induction l with
  | nil => rfl
  | cons e rest ih =>
    obtain ⟨k0, v0⟩ := e
    have hk0 : k0.space = s := hs (k0, v0) (List.mem_cons_self _ _)
    have hrest : SameSpace s rest := fun e he => hs e (List.mem_cons_of_mem _ he)
    rcases List.pairwise_cons.mp hsort with ⟨hhead, htail⟩
    have hcmp := PacketNumber.cmp_ok (a := k) (b := k0) (hk.trans hk0.symm)
    rcases Nat.lt_trichotomy k.value k0.value with hlt | heq | hgt
    · rw [if_pos hlt] at hcmp
      have hne : k ≠ k0 := by
        intro h
        rw [h] at hlt
        omega
      have hnone : lookupPure rest k = none := by
        refine lookupPure_eq_none fun x hx => ?_
        intro hkx
        have h2 : k0.value < x.1.value := hhead x hx
        rw [← hkx] at h2
        omega
      simp [getList, lookupPure, hcmp, except_bind_ok, hne, hnone]
    · have h1 : ¬k.value < k0.value := by omega
      have h2 : ¬k0.value < k.value := by omega
      rw [if_neg h1, if_neg h2] at hcmp
      have heq' : k = k0 := PacketNumber.eq_of_parts (hk.trans hk0.symm) heq
      subst heq'
      simp [getList, lookupPure, hcmp, except_bind_ok]
    · have h1 : ¬k.value < k0.value := by omega
      rw [if_neg h1, if_pos hgt] at hcmp
      have hne : k ≠ k0 := by
        intro h
        rw [h] at hgt
        omega
      simp [getList, lookupPure, hcmp, except_bind_ok, hne, ih hrest htail]

theorem removeList_eq {s : PacketNumberSpace} {l : SentPacketList} {k : PacketNumber}
    (hs : SameSpace s l) (hsort : SortedLedger l) (hk : k.space = s) :
    removeList l k = .ok (lookupPure l k, erasePure l k) := by
  induction l with
  | nil => rfl
  | cons e rest ih =>
    obtain ⟨k0, v0⟩ := e
    have hk0 : k0.space = s := hs (k0, v0) (List.mem_cons_self _ _)
    have hrest : SameSpace s rest := fun e he => hs e (List.mem_cons_of_mem _ he)
    rcases List.pairwise_cons.mp hsort with ⟨hhead, htail⟩
    have hcmp := PacketNumber.cmp_ok (a := k) (b := k0) (hk.trans hk0.symm)
    rcases Nat.lt_trichotomy k.value k0.value with hlt | heq | hgt
    · rw [if_pos hlt] at hcmp
      have hne : k ≠ k0 := by
        intro h
        rw [h] at hlt
        omega
      have hnone : lookupPure rest k = none := by
        refine lookupPure_eq_none fun x hx => ?_
        intro hkx
        have h2 : k0.value < x.1.value := hhead x hx
        rw [← hkx] at h2
        omega
      simp [removeList, lookupPure, erasePure, hcmp, except_bind_ok, hne, hnone,
        erasePure_eq_self hnone]
    · have h1 : ¬k.value < k0.value := by omega
      have h2 : ¬k0.value < k.value := by omega
      rw [if_neg h1, if_neg h2] at hcmp
      have heq' : k = k0 := PacketNumber.eq_of_parts (hk.trans hk0.symm) heq
      subst heq'
      simp [removeList, lookupPure, erasePure, hcmp, except_bind_ok]
    · have h1 : ¬k.value < k0.value := by omega
      rw [if_neg h1, if_pos hgt] at hcmp
      have hne : k ≠ k0 := by
        intro h
        rw [h] at hgt
        omega
      simp [removeList, lookupPure, erasePure, hcmp, except_bind_ok, hne, ih hrest htail]

theorem rangeList_eq {s : PacketNumberSpace} {l : SentPacketList}
    {r : PacketNumberRange} (hs : SameSpace s l) (h1 : r.start.space = s)
    (h2 : r.«end».space = s) :
    rangeList l r =
      .ok (l.filter fun e =>
        decide (r.start.value ≤ e.1.value ∧ e.1.value ≤ r.«end».value)) := by
  induction l with
  | nil => rfl
  | cons e rest ih =>
    obtain ⟨k0, v0⟩ := e
    have hk0 : k0.space = s := hs (k0, v0) (List.mem_cons_self _ _)
    have hrest : SameSpace s rest := fun e he => hs e (List.mem_cons_of_mem _ he)
    have hcmp1 := PacketNumber.cmp_ok (a := r.start) (b := k0) (h1.trans hk0.symm)
    have hcmp2 := PacketNumber.cmp_ok (a := k0) (b := r.«end») (hk0.trans h2.symm)
    by_cases hin : r.start.value ≤ k0.value ∧ k0.value ≤ r.«end».value
    · have e1 : ¬r.start.value < k0.value ∨ r.start.value < k0.value := by omega
      have g1 : (if r.start.value < k0.value then Ordering.lt
          else if k0.value < r.start.value then Ordering.gt else Ordering.eq) ≠
            Ordering.gt := by
        split
        · simp
        · rw [if_neg (by omega)]
          simp
      have g2 : (if k0.value < r.«end».value then Ordering.lt
          else if r.«end».value < k0.value then Ordering.gt else Ordering.eq) ≠
            Ordering.gt := by
        split
        · simp
        · rw [if_neg (by omega)]
          simp
      simp only [rangeList, hcmp1, hcmp2, except_bind_ok, ih hrest]
      rw [if_neg (by simp [g1, g2])]
      simp [List.filter, hin]
    · have hgt : r.start.value > k0.value ∨ k0.value > r.«end».value := by omega
      have hcond : (if r.start.value < k0.value then Ordering.lt
            else if k0.value < r.start.value then Ordering.gt else Ordering.eq) =
              Ordering.gt ∨
          (if k0.value < r.«end».value then Ordering.lt
            else if r.«end».value < k0.value then Ordering.gt else Ordering.eq) =
              Ordering.gt := by
        rcases hgt with h | h
        · left
          rw [if_neg (by omega), if_pos (by omega)]
        · right
          rw [if_neg (by omega), if_pos (by omega)]
      simp only [rangeList, hcmp1, hcmp2, except_bind_ok, ih hrest]
      rw [if_pos hcond]
      simp [List.filter, hin]

theorem reachable_invariant {s : PacketNumberSpace} {sp : SentPackets}
    (h : Reachable s sp) :
    SameSpace s sp.sent_packets ∧ SortedLedger sp.sent_packets := by
  induction h with
  | empty => exact ⟨fun e he => absurd he (List.not_mem_nil e), List.Pairwise.nil⟩
  | insert sp sp' k v hre hk heq ih =>
    rcases ih with ⟨hs, hsort⟩
    simp only [SentPackets.insert, insertList_eq hs hk, except_bind_ok,
      Except.ok.injEq] at heq
    subst heq
    exact ⟨sameSpace_insertPure hs hk, sorted_insertPure hsort⟩
  | remove sp sp' k res hre hk heq ih =>
    rcases ih with ⟨hs, hsort⟩
    simp [SentPackets.remove, removeList_eq hs hsort hk, except_bind_ok,
      Prod.mk.injEq] at heq
    rcases heq with ⟨hres, hsp⟩
    subst hsp
    exact ⟨sameSpace_erasePure hs, sorted_erasePure hsort⟩

theorem insertAll_spec {s : PacketNumberSpace} (ops : SentPacketList) :
    ∀ l : SentPacketList, SameSpace s l → SortedLedger l →
      (∀ op ∈ ops, op.1.space = s) →
      ∃ l', insertAll { sent_packets := l } ops = .ok { sent_packets := l' } ∧
        SameSpace s l' ∧ SortedLedger l' ∧
        (∀ k, lookupPure l' k = lastUpd ops k (lookupPure l k)) ∧
        (∀ x ∈ l', x.1 ∈ ops.map Prod.fst ∨ x ∈ l) := by
  induction ops with
  | nil =>
    intro l hs hsort _
    exact ⟨l, rfl, hs, hsort, fun k => rfl, fun x hx => Or.inr hx⟩
  | cons op ops ih =>
    obtain ⟨k0, v0⟩ := op
    intro l hs hsort hops
    have hk0 : k0.space = s := hops (k0, v0) (List.mem_cons_self _ _)
    have hops' : ∀ op ∈ ops, op.1.space = s := fun op hop =>
      hops op (List.mem_cons_of_mem _ hop)
    have h1 : SameSpace s (insertPure l k0 v0) := sameSpace_insertPure hs hk0
    have h2 : SortedLedger (insertPure l k0 v0) := sorted_insertPure hsort
    obtain ⟨l', hall, hs', hsort', hlook, hmem⟩ := ih (insertPure l k0 v0) h1 h2 hops'
    refine ⟨l', ?_, hs', hsort', ?_, ?_⟩
    · simp [insertAll, SentPackets.insert, insertList_eq hs hk0, except_bind_ok, hall]
    · intro k
      rw [hlook k, lookupPure_insertPure hs hk0 k]
      rfl
    · intro x hx
      simp only [List.map_cons, List.mem_cons]
      rcases hmem x hx with hx' | hx'
      · exact Or.inl (Or.inr hx')
      · rcases mem_insertPure hx' with h | h
        · rw [h]
          exact Or.inl (Or.inl rfl)
        · exact Or.inr h

theorem removeAll_empty {s : PacketNumberSpace} (ks : List PacketNumber) :
    ∀ l : SentPacketList, SameSpace s l → SortedLedger l →
      (∀ kk ∈ ks, kk.space = s) → (∀ x ∈ l, x.1 ∈ ks) →
      removeAll { sent_packets := l } ks = .ok { sent_packets := [] } := by
  induction ks with
  | nil =>
    intro l _ _ _ hdom
    cases l with
    | nil => rfl
    | cons x rest => exact absurd (hdom x (List.mem_cons_self _ _)) (List.not_mem_nil _)
  | cons kk ks ih =>
    intro l hs hsort hks hdom
    have hkk : kk.space = s := hks kk (List.mem_cons_self _ _)
    have hks' : ∀ x ∈ ks, x.space = s := fun x hx => hks x (List.mem_cons_of_mem _ hx)
    have hs' : SameSpace s (erasePure l kk) := sameSpace_erasePure hs
    have hsort' : SortedLedger (erasePure l kk) := sorted_erasePure hsort
    have hdom' : ∀ x ∈ erasePure l kk, x.1 ∈ ks := by
      intro x hx
      rcases List.mem_cons.mp (hdom x (mem_erasePure hx)) with h | h
      · exfalso
        have hsome := lookupPure_isSome_of_mem hx
        rw [h, lookupPure_erasePure_self hsort] at hsome
        simp at hsome
      · exact h
    have hrec := ih (erasePure l kk) hs' hsort' hks' hdom'
    simp [removeAll, SentPackets.remove, removeList_eq hs hsort hkk, except_bind_ok, hrec]

/-! ## Ledger theorems -/

/-- C3. On a ledger scoped to one packet-number space (nonempty, all keys in
space `s`), any `insert`, `get`, `remove` with a key from a different space,
and any `range` whose bounds lie in a different space, aborts with the fatal
assertion (modelled as `Except.error`) instead of returning a value or
mutating the ledger. -/
theorem sent_packets_cross_space_fatal (sp : SentPackets) (k : PacketNumber)
    (v : SentPacketInfo) (r : PacketNumberRange) (s : PacketNumberSpace)
    (hne : sp.sent_packets ≠ []) (hs : SameSpace s sp.sent_packets)
    (hk : k.space ≠ s) (hr1 : r.start.space ≠ s) (hr2 : r.«end».space ≠ s) :
    -- `hr2` records that the whole range lies in the foreign space; the abort
    -- already fires on the `start` bound.
    sp.insert k v = .error () ∧ sp.get k = .error () ∧
      sp.remove k = .error () ∧ sp.range r = .error () := by
  obtain ⟨e, rest, hl⟩ := List.exists_cons_of_ne_nil hne
  obtain ⟨k0, v0⟩ := e
  have hsp : k0.space = s := by
    have : (k0, v0) ∈ sp.sent_packets := by
      rw [hl]
      exact List.mem_cons_self _ _
    exact hs (k0, v0) this
  have hce : k.cmp k0 = .error () := PacketNumber.cmp_error (by rw [hsp]; exact hk)
  have hcr : r.start.cmp k0 = .error () := PacketNumber.cmp_error (by rw [hsp]; exact hr1)
  refine ⟨?_, ?_, ?_, ?_⟩
  · simp [SentPackets.insert, hl, insertList, hce, except_bind_error]
  · simp [SentPackets.get, hl, getList, hce, except_bind_error]
  · simp [SentPackets.remove, hl, removeList, hce, except_bind_error]
  · simp [SentPackets.range, hl, rangeList, hcr, except_bind_error]

/-- Concrete packet numbers and infos for the witnesses. -/
def pnInit1 : PacketNumber :=
  { space := .initial, value := 1 }

def pnInit2 : PacketNumber :=
  { space := .initial, value := 2 }

def pnInit3 : PacketNumber :=
  { space := .initial, value := 3 }

def pnApp1 : PacketNumber :=
  { space := .applicationData, value := 1 }

def pnApp2 : PacketNumber :=
  { space := .applicationData, value := 2 }

def info1 : SentPacketInfo :=
  SentPacketInfo.new false 1 10

def info3 : SentPacketInfo :=
  SentPacketInfo.new true 3 30

/-- A ledger holding one Initial-space entry. -/
def ledgerInitW : SentPackets :=
  { sent_packets := [(pnInit1, info1)] }

/-- An ApplicationData-space range. -/
def rangeAppW : PacketNumberRange :=
  { start := pnApp1, «end» := pnApp2 }

/-- Witness for C3: on the Initial-space ledger, insert/get/remove with an
ApplicationData packet number and range with ApplicationData bounds all abort. -/
theorem sent_packets_cross_space_fatal_witness :
    (ledgerInitW.sent_packets ≠ [] ∧ SameSpace .initial ledgerInitW.sent_packets ∧
      pnApp1.space ≠ .initial ∧ rangeAppW.start.space ≠ .initial ∧
      rangeAppW.«end».space ≠ .initial) ∧
    ledgerInitW.insert pnApp1 info1 = .error () ∧
      ledgerInitW.get pnApp1 = .error () ∧
      ledgerInitW.remove pnApp1 = .error () ∧
      ledgerInitW.range rangeAppW = .error () :=
  ⟨by decide,
    sent_packets_cross_space_fatal ledgerInitW pnApp1 info1 rangeAppW .initial
      (by decide) (by decide) (by decide) (by decide) (by decide)⟩

/-- C6. Same-space removal on a well-formed ledger: removing an absent key
returns `none` and leaves the ledger unchanged; removing a present key
returns the stored value and deletes the entry, so a second removal of the
same key returns `none` — double removal is tolerated, never an error. -/
theorem sent_packets_remove_idempotent (sp : SentPackets) (k : PacketNumber)
    (s : PacketNumberSpace) (hs : SameSpace s sp.sent_packets)
    (hsort : SortedLedger sp.sent_packets) (hk : k.space = s) :
    (lookupPure sp.sent_packets k = none → sp.remove k = .ok (none, sp)) ∧
    (∀ v, lookupPure sp.sent_packets k = some v →
      sp.remove k = .ok (some v, { sent_packets := erasePure sp.sent_packets k }) ∧
      SentPackets.remove { sent_packets := erasePure sp.sent_packets k } k =
        .ok (none, { sent_packets := erasePure sp.sent_packets k })) := by
  have hrem : sp.remove k =
      .ok (lookupPure sp.sent_packets k,
        { sent_packets := erasePure sp.sent_packets k }) := by
    simp [SentPackets.remove, removeList_eq hs hsort hk, except_bind_ok]
  constructor
  · intro hnone
    rw [hrem, hnone, erasePure_eq_self hnone]
  · intro v hsome
    have hs' : SameSpace s (erasePure sp.sent_packets k) := sameSpace_erasePure hs
    have hsort' : SortedLedger (erasePure sp.sent_packets k) := sorted_erasePure hsort
    have hnone' : lookupPure (erasePure sp.sent_packets k) k = none :=
      lookupPure_erasePure_self hsort
    constructor
    · rw [hrem, hsome]
    · have hrem2 : SentPackets.remove { sent_packets := erasePure sp.sent_packets k } k =
          .ok (lookupPure (erasePure sp.sent_packets k) k,
            { sent_packets := erasePure (erasePure sp.sent_packets k) k }) := by
        simp [SentPackets.remove, removeList_eq hs' hsort' hk, except_bind_ok]
      rw [hrem2, hnone', erasePure_eq_self hnone']

/-- A well-formed two-entry Initial-space ledger. -/
def spTwoW : SentPackets :=
  { sent_packets := [(pnInit1, info1), (pnInit3, info3)] }

/-- Witness for C6: on the two-entry ledger, removing `pnInit1` returns
`info1` and deletes the entry; removing it again returns `none`. -/
theorem sent_packets_remove_idempotent_witness :
    (SameSpace .initial spTwoW.sent_packets ∧ SortedLedger spTwoW.sent_packets ∧
      pnInit1.space = .initial ∧ lookupPure spTwoW.sent_packets pnInit1 = some info1) ∧
    spTwoW.remove pnInit1 =
      .ok (some info1, { sent_packets := erasePure spTwoW.sent_packets pnInit1 }) ∧
    SentPackets.remove { sent_packets := erasePure spTwoW.sent_packets pnInit1 } pnInit1 =
      .ok (none, { sent_packets := erasePure spTwoW.sent_packets pnInit1 }) :=
  ⟨by decide,
    (sent_packets_remove_idempotent spTwoW pnInit1 .initial (by decide) (by decide)
      (by decide)).2 info1 (by decide)⟩

/-- C7. For any ledger built by same-space insertions and removals, `iter`
yields the stored entries in strictly ascending packet-number order, and
`range` over same-space inclusive bounds yields exactly the stored entries
whose key lies within the bounds, in the same ascending order. Both are
plain values of the pure model, hence finite, non-destructive and
restartable by construction. -/
theorem sent_packets_iter_range_ordered (s : PacketNumberSpace) (sp : SentPackets)
    (h : Reachable s sp) :
    sp.iter.Pairwise (fun a b => a.1.value < b.1.value) ∧
    ∀ r : PacketNumberRange, r.start.space = s → r.«end».space = s →
      sp.range r = .ok (sp.iter.filter fun e =>
        decide (r.start.value ≤ e.1.value ∧ e.1.value ≤ r.«end».value)) ∧
      (sp.iter.filter fun e =>
        decide (r.start.value ≤ e.1.value ∧ e.1.value ≤ r.«end».value)).Pairwise
        (fun a b => a.1.value < b.1.value) := by
  obtain ⟨hs, hsort⟩ := reachable_invariant h
  refine ⟨hsort, fun r h1 h2 => ⟨rangeList_eq hs h1 h2, ?_⟩⟩
  exact hsort.sublist (List.filter_sublist _)

/-- A ledger reachable by two Initial-space insertions. -/
def spReachW : SentPackets :=
  { sent_packets := [(pnInit1, info1), (pnInit3, info3)] }

/-- The Initial-space range `[1, 2]`. -/
def rangeInitW : PacketNumberRange :=
  { start := pnInit1, «end» := pnInit2 }

/-- Witness for C7 on a concrete reachable ledger and the range `[1, 2]`. -/
theorem sent_packets_iter_range_ordered_witness :
    spReachW.iter.Pairwise (fun a b => a.1.value < b.1.value) ∧
    spReachW.range rangeInitW = .ok (spReachW.iter.filter fun e =>
      decide (rangeInitW.start.value ≤ e.1.value ∧
        e.1.value ≤ rangeInitW.«end».value)) ∧
    (spReachW.iter.filter fun e =>
      decide (rangeInitW.start.value ≤ e.1.value ∧
        e.1.value ≤ rangeInitW.«end».value)).Pairwise
      (fun a b => a.1.value < b.1.value) := by
  have hre : Reachable PacketNumberSpace.initial spReachW :=
    Reachable.insert { sent_packets := [(pnInit1, info1)] } spReachW pnInit3 info3
      (Reachable.insert { sent_packets := [] } { sent_packets := [(pnInit1, info1)] }
        pnInit1 info1 Reachable.empty rfl rfl)
      rfl rfl
  have h := sent_packets_iter_range_ordered PacketNumberSpace.initial spReachW hre
  exact ⟨h.1, (h.2 rangeInitW rfl rfl).1, (h.2 rangeInitW rfl rfl).2⟩

/-- C8. Round trip: folding `insert` over any same-space entry list from the
empty ledger succeeds; `get` then returns, for every same-space key, exactly
the value most recently inserted for it (`lastUpd`, so a duplicate key was
overwritten); and folding `remove` over all inserted keys empties the
ledger, so `iter` yields `[]`. -/
theorem sent_packets_round_trip (ops : SentPacketList) (s : PacketNumberSpace)
    (hops : ∀ op ∈ ops, op.1.space = s) :
    ∃ sp : SentPackets, insertAll SentPackets.default ops = .ok sp ∧
      (∀ k : PacketNumber, k.space = s → sp.get k = .ok (lastUpd ops k none)) ∧
      ∃ sp2 : SentPackets, removeAll sp (ops.map Prod.fst) = .ok sp2 ∧
        sp2.iter = [] := by
  obtain ⟨l', hall, hs', hsort', hlook, hmem⟩ :=
    insertAll_spec ops [] (fun e he => absurd he (List.not_mem_nil e))
      List.Pairwise.nil hops
  refine ⟨{ sent_packets := l' }, hall, ?_, ?_⟩
  · intro k hk
    show getList l' k = .ok (lastUpd ops k none)
    rw [getList_eq hs' hsort' hk, hlook k]
    rfl
  · have hdom : ∀ x ∈ l', x.1 ∈ ops.map Prod.fst := by
      intro x hx
      rcases hmem x hx with h | h
      · exact h
      · exact absurd h (List.not_mem_nil x)
    have hks : ∀ kk ∈ ops.map Prod.fst, kk.space = s := by
      intro kk hkk
      obtain ⟨op, hop, rfl⟩ := List.mem_map.mp hkk
      exact hops op hop
    exact ⟨SentPackets.default,
      removeAll_empty (ops.map Prod.fst) l' hs' hsort' hks hdom, rfl⟩

/-- Two distinct Initial-space insertions, deliberately out of order. -/
def opsW : SentPacketList :=
  [(pnInit3, info3), (pnInit1, info1)]

/-- Witness for C8 on the concrete two-entry insertion sequence. -/
theorem sent_packets_round_trip_witness :
    (∀ op ∈ opsW, op.1.space = PacketNumberSpace.initial) ∧
    ∃ sp : SentPackets, insertAll SentPackets.default opsW = .ok sp ∧
      (∀ k : PacketNumber, k.space = PacketNumberSpace.initial →
        sp.get k = .ok (lastUpd opsW k none)) ∧
      ∃ sp2 : SentPackets, removeAll sp (opsW.map Prod.fst) = .ok sp2 ∧
        sp2.iter = [] :=
  ⟨by decide, sent_packets_round_trip opsW PacketNumberSpace.initial (by decide)⟩
